import Mathlib

set_option maxHeartbeats 1000000

/-! Shallow embedding of the winston-seq transport's formatting core
(`src/index.ts`).  JavaScript values are modelled as primitives plus
references into an explicit heap of nodes, so that JS reference identity
(`===` on objects) is address equality.  An object node carries the data
the source consults: whether it is an `instanceof Error`, the result of
`obj.constructor?.name`, its own properties (with their enumerability,
since `for..in` sees only enumerable ones while `Object.getOwnPropertyNames`
sees all own properties), and its prototype. -/

abbrev Addr := Nat

inductive JSPrim where
  | null
  | undef
  | str (s : String)
  | num (n : Int)
  | bigint (n : Int)
  | bool (b : Bool)
  | sym (s : String)
deriving DecidableEq, Repr

inductive JSVal where
  | prim (p : JSPrim)
  | ref (a : Addr)
deriving DecidableEq, Repr

structure JSField where
  key : String
  value : JSVal
  enumerable : Bool
deriving DecidableEq, Repr

inductive JSNode where
  | obj (isErrInst : Bool) (ctorName : Option String) (fields : List JSField) (proto : Option Addr)
  | arr (elems : List JSVal)
  | date (iso : String)
  | buf (bytes : List Nat)
  | fn (name : String) (src : String)
deriving DecidableEq, Repr

structure Heap where
  nodes : List JSNode
deriving Repr

/-- JavaScript truthiness, as used by `if (!obj)` in `isError` and by
`timestamp && ...` in `Transport.log`. -/
def truthy : JSVal → Bool
  | .prim .null => false
  | .prim .undef => false
  | .prim (.str s) => s ≠ ""
  | .prim (.num n) => n ≠ 0
  | .prim (.bigint n) => n ≠ 0
  | .prim (.bool b) => b
  | .prim (.sym _) => true
  | .ref _ => true

/-- `isComplex` from the source: `val && (typeof val === 'object' || typeof val === 'function')`.
In this model every heap reference has typeof `object` or `function` and is truthy,
and no primitive does. -/
def isComplex : JSVal → Bool
  | .ref _ => true
  | .prim _ => false

/-- `isPrimitive` from the source: null, undefined, string, number, bigint, boolean.
Symbols and references are not primitive for this test. -/
def isPrimitive : JSVal → Bool
  | .prim .null => true
  | .prim .undef => true
  | .prim (.str _) => true
  | .prim (.num _) => true
  | .prim (.bigint _) => true
  | .prim (.bool _) => true
  | .prim (.sym _) => false
  | .ref _ => false

/-- JS property read `a[k]` on a heap object: own properties first
(enumerable or not), then the prototype chain.  Fuel bounds the chain walk.
A function's `name` is also readable, matching `fn.name`. -/
def getPropAux (h : Heap) : Nat → Addr → String → JSVal
  | 0, _, _ => .prim .undef
  | n + 1, a, k =>
    match h.nodes[a]? with
    | some (.obj _ _ fields proto) =>
      match fields.find? (fun f => f.key == k) with
      | some f => f.value
      | none =>
        match proto with
        | some p => getPropAux h n p k
        | none => .prim .undef
    | some (.fn name _) => if k = "name" then .prim (.str name) else .prim .undef
    | _ => .prim .undef

def getProp (h : Heap) (a : Addr) (k : String) : JSVal :=
  getPropAux h (h.nodes.length + 1) a k

/-- Property read on an arbitrary value; primitives yield `undefined` here
(none of the primitive wrappers carries a `stack`-like property in this model). -/
def getPropV (h : Heap) (v : JSVal) (k : String) : JSVal :=
  match v with
  | .ref a => getProp h a k
  | .prim _ => .prim .undef

def isStringVal : JSVal → Bool
  | .prim (.str _) => true
  | _ => false

/-- `isError` from the source: falsy values are not errors; otherwise
`obj instanceof Error`, or `obj.constructor?.name === 'Error'`, or the
duck test (string-valued `name`, `message` and `stack`).  Only object
nodes can satisfy any of the three tests in this model (arrays, dates,
buffers and functions carry none of the three duck fields together, and
their constructor names are not `'Error'`). -/
def isError (h : Heap) (v : JSVal) : Bool :=
  if truthy v then
    match v with
    | .ref a =>
      match h.nodes[a]? with
      | some (.obj isErrInst ctorName _ _) =>
        isErrInst || ctorName == some "Error" ||
          (isStringVal (getProp h a "name") && isStringVal (getProp h a "message")
            && isStringVal (getProp h a "stack"))
      | _ => false
    | .prim _ => false
  else false

/-- Keys visited by `for (let key in val)`: at each level of the prototype
chain, the own enumerable keys not shadowed by a previously seen own key
(of any enumerability), in declaration order. -/
def forInKeysAux (h : Heap) : Nat → Option Addr → List String → List String
  | 0, _, _ => []
  | _, none, _ => []
  | n + 1, some a, seen =>
    match h.nodes[a]? with
    | some (.obj _ _ fields proto) =>
      ((fields.filter (fun f => f.enumerable && !(seen.contains f.key))).map (fun f => f.key))
        ++ forInKeysAux h n proto (seen ++ fields.map (fun f => f.key))
    | _ => []

def forInKeys (h : Heap) (a : Addr) : List String :=
  forInKeysAux h (h.nodes.length + 1) (some a) []

/-- The formatted property tree (`IFormattedProperty`).  `raw` is a primitive
returned unchanged by `format` (and the `'$buffer'` / `'$function'` placeholder
strings); `errorF` holds the `$error` object, whose property values are copied
verbatim (raw JS values), with the `stack` entry replaced by the `*[id]` token. -/
inductive FProp where
  | fnull
  | raw (p : JSPrim)
  | circular (path : String)
  | errorF (fields : List (String × JSVal))
  | dateF (iso : String)
  | bufferF (bytes : List Nat)
  | symbolF (s : String)
  | functionF (name : String) (src : String)
  | arrF (elems : List FProp)
  | objF (fields : List (String × FProp))

structure VisitRecord where
  value : JSVal
  path : String
deriving DecidableEq, Repr

/-- The two pieces of call-scoped mutable state of `formatMeta`:
the extracted errors (with their ids) and the circular-reference table. -/
structure FmtState where
  errors : List (JSVal × Nat)
  allValues : List VisitRecord
deriving DecidableEq, Repr

/-- `checkCircular` from the source: for complex values, return the first-seen
path when the value is already in the table (by identity), otherwise append a
visit record.  Non-complex values are never tracked. -/
def checkCircular (val : JSVal) (path : String) (allValues : List VisitRecord) :
    Option String × List VisitRecord :=
  if isComplex val then
    match allValues.find? (fun r => r.value == val) with
    | some r => (some r.path, allValues)
    | none => (none, allValues ++ [⟨val, path⟩])
  else (none, allValues)

/-- `formatError` from the source: every own property of the error except
`stack` is copied verbatim (in `Object.getOwnPropertyNames` order), then
`stack` is set to the back-reference token `*[id]`. -/
def errorFields (h : Heap) (v : JSVal) (id : Nat) : List (String × JSVal) :=
  let stackEntry : String × JSVal := ("stack", .prim (.str ("*[" ++ toString id ++ "]")))
  match v with
  | .ref a =>
    match h.nodes[a]? with
    | some (.obj _ _ fields _) =>
      ((fields.filter (fun f => f.key != "stack")).map (fun f => (f.key, f.value))) ++ [stackEntry]
    | _ => [stackEntry]
  | _ => [stackEntry]

/-- `formatDate` from the source. -/
def formatDate (iso : String) : FProp :=
  .dateF iso

/-- `formatBuffer` from the source: a configured non-positive maximum yields
the `'$buffer'` placeholder string; a positive maximum truncates to the leading
`maxLength` bytes when exceeded; otherwise the bytes are copied unmodified. -/
def formatBuffer (bytes : List Nat) : Option Int → FProp
  | some m =>
    if m ≤ 0 then .raw (.str "$buffer")
    else if (bytes.length : Int) > m then .bufferF (bytes.take m.toNat)
    else .bufferF bytes
  | none => .bufferF bytes

/-- `formatSymbol` from the source (the symbol's printed representation). -/
def formatSymbol (s : String) : FProp :=
  .symbolF s

/-- `formatFunction` from the source: a configured non-positive maximum yields
the `'$function'` placeholder string; a positive maximum truncates the source
text to `maxLength - 8` characters (clamped at 0, as `substring` clamps) and
appends the fixed `"\n// ..."` suffix; otherwise the full source is kept. -/
def formatFunction (name src : String) : Option Int → FProp
  | some m =>
    if m ≤ 0 then .raw (.str "$function")
    else if (src.length : Int) > m then .functionF name (src.take (m - 8).toNat ++ "\n// ...")
    else .functionF name src
  | none => .functionF name src

/-- Formatting options consumed by the formatter (`IOption`). -/
structure IOption where
  maxBufferLength : Option Int := none
  maxFunctionSourceLength : Option Int := none
deriving DecidableEq, Repr

/-- Formats the elements of an array, as `formatArray` maps `format` over the
elements with path suffix `[i]`, threading the call-scoped state. -/
def mapFmt (f : JSVal → String → FmtState → Option (FProp × FmtState)) (path : String) :
    List JSVal → Nat → FmtState → Option (List FProp × FmtState)
  | [], _, st => some ([], st)
  | v :: vs, i, st =>
    match f v (path ++ "[" ++ toString i ++ "]") st with
    | none => none
    | some (r, st1) =>
      match mapFmt f path vs (i + 1) st1 with
      | none => none
      | some (rs, st2) => some (r :: rs, st2)

/-- Formats the properties of an object, as `formatProperties` runs
`for (let key in val)` and formats `val[key]` with path suffix `.key`. -/
def fieldsFmt (f : JSVal → String → FmtState → Option (FProp × FmtState))
    (h : Heap) (a : Addr) (path : String) :
    List String → FmtState → Option (List (String × FProp) × FmtState)
  | [], st => some ([], st)
  | k :: ks, st =>
    match f (getProp h a k) (path ++ "." ++ k) st with
    | none => none
    | some (r, st1) =>
      match fieldsFmt f h a path ks st1 with
      | none => none
      | some (rs, st2) => some ((k, r) :: rs, st2)

/-- `format` from the source, with a fuel parameter making the recursion
manifestly total (the termination theorem shows that `heap size + 1` fuel
always suffices).  The branch order follows the source: the `val == null`
test (null or undefined), `checkCircular`, `isError`, `isPrimitive`, then
`Date` / `Buffer` / symbol / function / array dispatch, and `formatProperties`
for remaining objects.  The `formatNonObject` fallback of the source is
unreachable (after the earlier tests only `typeof val === 'object'` remains)
and has no counterpart node here. -/
def format (h : Heap) (opts : IOption) :
    Nat → JSVal → String → FmtState → Option (FProp × FmtState)
  | 0, _, _, _ => none
  | n + 1, val, path, st =>
    if val = .prim .null ∨ val = .prim .undef then
      some (.fnull, st)
    else
      match checkCircular val path st.allValues with
      | (some priorPath, _) => some (.circular priorPath, st)
      | (none, allValues1) =>
        let st1 : FmtState := ⟨st.errors, allValues1⟩
        if isError h val then
          let id := st1.errors.length
          some (.errorF (errorFields h val id), ⟨st1.errors ++ [(val, id)], st1.allValues⟩)
        else if isPrimitive val then
          match val with
          | .prim p => some (.raw p, st1)
          | .ref _ => some (.fnull, st1)
        else
          match val with
          | .prim (.sym s) => some (formatSymbol s, st1)
          | .prim _ => some (.fnull, st1)
          | .ref a =>
            match h.nodes[a]? with
            | some (.date iso) => some (formatDate iso, st1)
            | some (.buf bytes) => some (formatBuffer bytes opts.maxBufferLength, st1)
            | some (.fn name src) => some (formatFunction name src opts.maxFunctionSourceLength, st1)
            | some (.arr elems) =>
              match mapFmt (format h opts n) path elems 0 st1 with
              | none => none
              | some (rs, st2) => some (.arrF rs, st2)
            | some (.obj _ _ _ _) =>
              match fieldsFmt (format h opts n) h a path (forInKeys h a) st1 with
              | none => none
              | some (es, st2) => some (.objF es, st2)
            | none => some (.fnull, st1)

/-- `formatMeta` from the source: fresh call-scoped `errors` and `allValues`,
formatting from the `$root` path.  Fuel `heap size + 1` is always enough
(see the termination theorem). -/
def formatMeta (h : Heap) (opts : IOption) (meta : JSVal) :
    Option (FProp × List (JSVal × Nat)) :=
  match format h opts (h.nodes.length + 1) meta "$root" ⟨[], []⟩ with
  | some (p, st) => some (p, st.errors)
  | none => none

def jsToStringPrim : JSPrim → String
  | .null => "null"
  | .undef => "undefined"
  | .str s => s
  | .num n => toString n
  | .bigint n => toString n
  | .bool b => if b then "true" else "false"
  | .sym s => s

/-- Host model of `Error.prototype.toString`: `name` defaults to `"Error"`
when absent, `message` to the empty string, joined with `": "` when both
are non-empty. -/
def errToString (h : Heap) (a : Addr) : String :=
  let name :=
    match getProp h a "name" with
    | .prim .undef => "Error"
    | .prim p => jsToStringPrim p
    | .ref _ => "[object Object]"
  let msg :=
    match getProp h a "message" with
    | .prim .undef => ""
    | .prim p => jsToStringPrim p
    | .ref _ => "[object Object]"
  if name = "" then msg
  else if msg = "" then name
  else name ++ ": " ++ msg

/-- Host model of JS string conversion (`String(v)` / `v.toString()`), for
the values `getErrorStack` can reach: primitives print as usual; an
`instanceof Error` object uses `Error.prototype.toString`; other plain
objects print as `[object Object]`; a function prints its source. -/
def jsToString (h : Heap) : JSVal → String
  | .prim p => jsToStringPrim p
  | .ref a =>
    match h.nodes[a]? with
    | some (.obj isErrInst _ _ _) =>
      if isErrInst then errToString h a else "[object Object]"
    | some (.fn _ src) => src
    | some (.date iso) => iso
    | some (.buf _) => ""
    | some (.arr _) => ""
    | none => ""

/-- `getErrorStack` from the source: a falsy error yields the
`[id]: <No stack>` placeholder; otherwise the block is `[id]: ` followed by
the error's `stack` property if it is defined (converted to a string by the
template literal), else by `err.toString()`. -/
def getErrorStack (h : Heap) (err : JSVal) (id : Nat) : String :=
  if !(truthy err) then "[" ++ toString id ++ "]: <No stack>"
  else
    let stack :=
      match getPropV h err "stack" with
      | .prim .undef => jsToString h err
      | v => jsToString h v
    "[" ++ toString id ++ "]: " ++ stack

/-- The `exception` text assembled in `Transport.log`: one `getErrorStack`
block per extracted error, joined with a blank line. -/
def renderException (h : Heap) (errors : List (JSVal × Nat)) : String :=
  String.intercalate "\n\n" (errors.map (fun e => getErrorStack h e.1 e.2))

/-- Host model of `String.prototype.toLowerCase` (character-wise lowering). -/
def jsLower (s : String) : String :=
  ⟨s.data.map Char.toLower⟩

/-- `defaultLevelMapper` from the source: `level?.toLowerCase()` switched
over the known names, defaulting to `Information` (also for an absent level). -/
def defaultLevelMapper (level : Option String) : String :=
  match level with
  | none => "Information"
  | some s =>
    let l := jsLower s
    if l = "verbose" then "Verbose"
    else if l = "silly" then "Verbose"
    else if l = "debug" then "Debug"
    else if l = "info" then "Information"
    else if l = "warn" then "Warning"
    else if l = "error" then "Error"
    else if l = "fatal" then "Fatal"
    else "Information"

/-- The resolved `timestamp` of the event built in `Transport.log`:
`timestamp && !Number.isNaN(Date.parse(timestamp)) ? new Date(Date.parse(timestamp)) : new Date()`.
`parse` models the host `Date.parse` (`none` for NaN), `now` the clock;
an absent or falsy (empty) timestamp string, or one that does not parse,
resolves to the current time. -/
def resolveTimestamp (parse : String → Option Int) (now : Int) : Option String → Int
  | none => now
  | some s =>
    if s = "" then now
    else
      match parse s with
      | some t => t
      | none => now

/-- The assembled Seq event (`SeqEvent`): the timestamp is an epoch value,
`exception` and `properties` are optional. -/
structure SeqEvent where
  timestamp : Int
  level : String
  messageTemplate : String
  exception : Option String
  properties : Option FProp

/-- The destructured winston record: `const { level, message, timestamp, ...meta } = info`. -/
structure LogRecord where
  level : Option String
  message : String
  timestamp : Option String
  meta : JSVal

/-- The event-assembly core of `Transport.log` (the body of the deferred
closure, minus the transport emit): resolve the timestamp, map the level,
format the metadata, attach `exception` iff at least one error was extracted
and `properties` iff the formatted metadata is not null. -/
def transportLog (h : Heap) (opts : IOption) (mapper : Option String → String)
    (parse : String → Option Int) (now : Int) (info : LogRecord) : Option SeqEvent :=
  match formatMeta h opts info.meta with
  | none => none
  | some (properties, errors) =>
    some {
      timestamp := resolveTimestamp parse now info.timestamp
      level := mapper info.level
      messageTemplate := info.message
      exception := if errors.length ≠ 0 then some (renderException h errors) else none
      properties :=
        match properties with
        | .fnull => none
        | p => some p
    }

mutual

/-- Number of `$circular` markers in a formatted tree. -/
def countCircular : FProp → Nat
  | .circular _ => 1
  | .arrF elems => countCircularList elems
  | .objF fields => countCircularFields fields
  | _ => 0

/-- Number of `$circular` markers in a list of formatted trees. -/
def countCircularList : List FProp → Nat
  | [] => 0
  | x :: xs => countCircular x + countCircularList xs

/-- Number of `$circular` markers under the fields of a formatted object. -/
def countCircularFields : List (String × FProp) → Nat
  | [] => 0
  | (_, x) :: xs => countCircular x + countCircularFields xs

end

/-- Top-level keys of a formatted object tree. -/
def objKeys : FProp → List String
  | .objF fields => fields.map Prod.fst
  | _ => []

/-! Concrete heaps used by the claim scenarios. -/

/-- Heap for the `o.self = o` scenario: one plain object whose `self`
field refers back to itself. -/
def H1 : Heap := ⟨[.obj false (some "Object") [⟨"self", .ref 0, true⟩] none]⟩

/-- Heap for a value that contains itself at two positions: `o.a = o` and `o.b = o`. -/
def H1c : Heap := ⟨[.obj false (some "Object") [⟨"a", .ref 0, true⟩, ⟨"b", .ref 0, true⟩] none]⟩

/-- Heap for the `{ list: [errA, errB] }` scenario: a plain root object, an
array, and two `Error` instances whose own properties are `message` and
`stack` (non-enumerable, as native error properties are). -/
def H2 : Heap := ⟨[
  .obj false (some "Object") [⟨"list", .ref 1, true⟩] none,
  .arr [.ref 2, .ref 3],
  .obj true (some "Error")
    [⟨"message", .prim (.str "a"), false⟩, ⟨"stack", .prim (.str "Error: a\n    at x"), false⟩] none,
  .obj true (some "Error")
    [⟨"message", .prim (.str "b"), false⟩, ⟨"stack", .prim (.str "Error: b\n    at y"), false⟩] none]⟩

/-- Heap with two structurally identical but distinct objects referenced
from one root: identity-keyed tracking must not merge them. -/
def H3 : Heap := ⟨[
  .obj false (some "Object") [⟨"x", .ref 1, true⟩, ⟨"y", .ref 2, true⟩] none,
  .obj false (some "Object") [⟨"v", .prim (.str "1"), true⟩] none,
  .obj false (some "Object") [⟨"v", .prim (.str "1"), true⟩] none]⟩

/-- Heap with an array that directly contains itself. -/
def H3b : Heap := ⟨[.arr [.ref 0]]⟩

/-- Heap whose root object inherits an enumerable property `inh` from its
prototype, in addition to its own enumerable property `own`. -/
def H6 : Heap := ⟨[
  .obj false (some "Object") [⟨"own", .prim (.str "o"), true⟩] (some 1),
  .obj false (some "Object") [⟨"inh", .prim (.str "i"), true⟩] none]⟩

/-- Heap whose root object has an object-valued property, to observe the
`.key` path suffix in the visit table. -/
def H6b : Heap := ⟨[
  .obj false (some "Object") [⟨"x", .ref 1, true⟩] none,
  .obj false (some "Object") [] none]⟩

/-- Heap with an `Error` instance that has a `message` but no `stack`
property anywhere. -/
def H7 : Heap := ⟨[.obj true (some "Error") [⟨"message", .prim (.str "boom"), false⟩] none]⟩

/-- Heap with an empty plain object, used as trivial metadata. -/
def H9 : Heap := ⟨[.obj false (some "Object") [] none]⟩

/-- Heap where the same error object is referenced from two sibling
properties of the root. -/
def H10 : Heap := ⟨[
  .obj false (some "Object") [⟨"a", .ref 1, true⟩, ⟨"b", .ref 1, true⟩] none,
  .obj true (some "Error")
    [⟨"message", .prim (.str "e"), false⟩, ⟨"stack", .prim (.str "Error: e"), false⟩] none]⟩

/-- C4: byte-sequence encoding.  A configured maximum `≤ 0` yields the
`'$buffer'` placeholder string (not an object); a positive maximum truncates
to exactly the leading `maxBufferLength` bytes when the buffer is longer;
otherwise the bytes are unmodified, and so with no configured maximum.
In particular an 8-byte buffer with maximum 4 encodes to its first 4 bytes,
a 3-byte buffer with maximum 4 is unmodified, and maximum 0 yields the
placeholder. -/
theorem C4_buffer_encoding :
    (∀ (bytes : List Nat) (m : Int), m ≤ 0 →
      formatBuffer bytes (some m) = .raw (.str "$buffer")) ∧
    (∀ (bytes : List Nat) (m : Int), 0 < m → (bytes.length : Int) > m →
      formatBuffer bytes (some m) = .bufferF (bytes.take m.toNat)) ∧
    (∀ (bytes : List Nat) (m : Int), 0 < m → (bytes.length : Int) ≤ m →
      formatBuffer bytes (some m) = .bufferF bytes) ∧
    (∀ bytes : List Nat, formatBuffer bytes none = .bufferF bytes) ∧
    formatBuffer [1, 2, 3, 4, 5, 6, 7, 8] (some 4) = .bufferF [1, 2, 3, 4] ∧
    formatBuffer [1, 2, 3] (some 4) = .bufferF [1, 2, 3] ∧
    formatBuffer [1, 2, 3] (some 0) = .raw (.str "$buffer") := by
  refine ⟨?_, ?_, ?_, ?_, rfl, rfl, rfl⟩
  · intro bytes m hm
    simp [formatBuffer, hm]
  · intro bytes m hm hlen
    simp [formatBuffer, not_le.mpr hm, hlen]
  · intro bytes m hm hlen
    simp [formatBuffer, not_le.mpr hm, not_lt.mpr hlen]
  · intro bytes
    rfl

/-- Witness for C4 at concrete inputs. -/
theorem C4_buffer_encoding_witness :
    formatBuffer [9, 9, 9, 9, 9] (some 2) = .bufferF [9, 9] :=
  C4_buffer_encoding.2.1 [9, 9, 9, 9, 9] 2 (by decide) (by decide)

/-- C5 counterexample: the default level mapper does not trim its input.
`" warn "` (whose trimmed form is `"warn"`) maps to `Information`, not to
the `Warning` required by the claimed trimming behaviour, while the
trimmed string `"warn"` itself maps to `Warning`. -/
theorem C5_counterexample :
    defaultLevelMapper (some " warn ") = "Information" ∧
    defaultLevelMapper (some "warn") = "Warning" ∧
    "Information" ≠ "Warning" := by
  refine ⟨by rfl, by rfl, by decide⟩

/-- C5 as amended: the default level mapper is case-insensitive (it depends
only on the lowercased input) but does not trim; it maps verbose→Verbose,
silly→Verbose, debug→Debug, info→Information, warn→Warning, error→Error,
fatal→Fatal and everything else — including the empty or absent level —
to Information; in particular "warn"→"Warning", "FATAL"→"Fatal",
""→"Information" and "unknown-level"→"Information". -/
theorem C5_level_mapper :
    (∀ s t : String, jsLower s = jsLower t →
      defaultLevelMapper (some s) = defaultLevelMapper (some t)) ∧
    defaultLevelMapper (some "verbose") = "Verbose" ∧
    defaultLevelMapper (some "silly") = "Verbose" ∧
    defaultLevelMapper (some "debug") = "Debug" ∧
    defaultLevelMapper (some "info") = "Information" ∧
    defaultLevelMapper (some "warn") = "Warning" ∧
    defaultLevelMapper (some "error") = "Error" ∧
    defaultLevelMapper (some "fatal") = "Fatal" ∧
    defaultLevelMapper (some "FATAL") = "Fatal" ∧
    defaultLevelMapper (some "") = "Information" ∧
    defaultLevelMapper (some "unknown-level") = "Information" ∧
    defaultLevelMapper none = "Information" := by
  refine ⟨?_, by rfl, by rfl, by rfl, by rfl, by rfl, by rfl, by rfl, by rfl, by rfl,
    by rfl, by rfl⟩
  intro s t hst
  simp only [defaultLevelMapper, hst]

/-- Witness for C5's case-insensitivity conjunct at concrete inputs. -/
theorem C5_level_mapper_witness :
    defaultLevelMapper (some "WaRn") = defaultLevelMapper (some "warn") :=
  C5_level_mapper.1 "WaRn" "warn" (by rfl)

/-- C7 counterexample: the error-like value of heap `H7` (an `Error`
instance with a `message` but no `stack` property) renders as
`"[0]: Error: boom"`, the `[id]: ` label followed by `err.toString()`,
not as the `"[0]: <No stack>"` placeholder the claim requires. -/
theorem C7_counterexample :
    isError H7 (.ref 0) = true ∧
    getPropV H7 (.ref 0) "stack" = .prim .undef ∧
    getErrorStack H7 (.ref 0) 0 = "[0]: Error: boom" ∧
    "[0]: Error: boom" ≠ "[0]: <No stack>" := by
  refine ⟨rfl, rfl, rfl, by decide⟩

/-- C7 as amended: the `[id]: <No stack>` placeholder is produced only when
the error value itself is falsy (which never holds for an extracted
error-like value); an error-like value whose `stack` property is undefined
instead renders `[id]: ` followed by its string conversion, and one whose
`stack` is a string renders `[id]: ` followed by that string. -/
theorem C7_no_stack_rendering :
    (∀ (h : Heap) (err : JSVal) (id : Nat), truthy err = false →
      getErrorStack h err id = "[" ++ toString id ++ "]: <No stack>") ∧
    (∀ (h : Heap) (err : JSVal) (id : Nat), truthy err = true →
      getPropV h err "stack" = .prim .undef →
      getErrorStack h err id = "[" ++ toString id ++ "]: " ++ jsToString h err) ∧
    (∀ (h : Heap) (err : JSVal) (id : Nat) (s : String), truthy err = true →
      getPropV h err "stack" = .prim (.str s) →
      getErrorStack h err id = "[" ++ toString id ++ "]: " ++ s) := by
  refine ⟨?_, ?_, ?_⟩
  · intro h err id htr
    simp [getErrorStack, htr]
  · intro h err id htr hstack
    simp [getErrorStack, htr, hstack]
  · intro h err id s htr hstack
    simp [getErrorStack, htr, hstack, jsToString, jsToStringPrim]

/-- Witness for C7's amended statement at a concrete input. -/
theorem C7_no_stack_rendering_witness :
    getErrorStack H7 (.ref 0) 0 = "[" ++ toString 0 ++ "]: " ++ jsToString H7 (.ref 0) :=
  C7_no_stack_rendering.2.1 H7 (.ref 0) 0 rfl rfl

/-- C8: callable encoding.  The function's name and source text are captured;
a configured maximum `≤ 0` yields the `'$function'` placeholder string; a
positive maximum shorter than the source truncates the source to
`max - 8` characters (clamped at zero) and appends the fixed `"\n// ..."`
suffix; otherwise — and always when no maximum is configured — the full
source is emitted with the name. -/
theorem C8_function_encoding :
    (∀ (name src : String) (m : Int), m ≤ 0 →
      formatFunction name src (some m) = .raw (.str "$function")) ∧
    (∀ (name src : String) (m : Int), 0 < m → (src.length : Int) > m →
      formatFunction name src (some m) = .functionF name (src.take (m - 8).toNat ++ "\n// ...")) ∧
    (∀ (name src : String) (m : Int), 0 < m → (src.length : Int) ≤ m →
      formatFunction name src (some m) = .functionF name src) ∧
    (∀ name src : String, formatFunction name src none = .functionF name src) ∧
    formatFunction "f" "0123456789abcdefgh" (some 10) = .functionF "f" ("01" ++ "\n// ...") := by
  refine ⟨?_, ?_, ?_, ?_, rfl⟩
  · intro name src m hm
    simp [formatFunction, hm]
  · intro name src m hm hlen
    simp [formatFunction, not_le.mpr hm, hlen]
  · intro name src m hm hlen
    simp [formatFunction, not_le.mpr hm, not_lt.mpr hlen]
  · intro name src
    rfl

/-- Witness for C8 at concrete inputs. -/
theorem C8_function_encoding_witness :
    formatFunction "g" "abc" (some 5) = .functionF "g" "abc" :=
  C8_function_encoding.2.2.1 "g" "abc" 5 (by decide) (by decide)

/-- C9: the assembled event's timestamp is the parsed timestamp when one is
provided, non-empty, and parses as a valid date; otherwise (absent, empty,
or unparseable — e.g. `"not-a-date"`) it is the current time. -/
theorem C9_timestamp :
    ∀ (h : Heap) (opts : IOption) (mapper : Option String → String)
      (parse : String → Option Int) (now : Int) (info : LogRecord) (ev : SeqEvent),
      transportLog h opts mapper parse now info = some ev →
      (∀ (s : String) (t : Int), info.timestamp = some s → s ≠ "" → parse s = some t →
        ev.timestamp = t) ∧
      (∀ s : String, info.timestamp = some s → parse s = none → ev.timestamp = now) ∧
      (info.timestamp = none → ev.timestamp = now) := by
  intro h opts mapper parse now info ev hlog
  unfold transportLog at hlog
  have hts : ev.timestamp = resolveTimestamp parse now info.timestamp := by
    cases hfm : formatMeta h opts info.meta with
    | none => rw [hfm] at hlog; exact absurd hlog (by simp)
    | some pe =>
      rw [hfm] at hlog
      cases hlog
      rfl
  refine ⟨?_, ?_, ?_⟩
  · intro s t hs hne hp
    rw [hts, hs]
    simp [resolveTimestamp, hne, hp]
  · intro s hs hp
    rw [hts, hs]
    by_cases he : s = "" <;> simp [resolveTimestamp, he, hp]
  · intro hs
    rw [hts, hs]
    rfl

/-- Witness for C9: with a parse function rejecting `"not-a-date"`, the
assembled event's timestamp is the clock value `42`. -/
theorem C9_timestamp_witness :
    (SeqEvent.mk 42 "Information" "m" none (some (.objF []))).timestamp = 42 :=
  (C9_timestamp H9 {} defaultLevelMapper (fun _ => none) 42
      ⟨some "info", "m", some "not-a-date", .ref 0⟩
      ⟨42, "Information", "m", none, some (.objF [])⟩ (by rfl)).2.1 "not-a-date" rfl rfl

/-! General lemmas about the formatter. -/

/-- A primitive value never passes `isError` (falsy values are rejected, and
truthy primitives fail all three tests). -/
theorem isError_prim (h : Heap) (p : JSPrim) : isError h (.prim p) = false := by
  unfold isError
  split <;> rfl

/-- State extension: the call-scoped error list and visit table only ever
grow by appending. -/
def StExt (st st' : FmtState) : Prop :=
  (∃ e, st'.errors = st.errors ++ e) ∧ (∃ a, st'.allValues = st.allValues ++ a)

theorem stExt_refl (st : FmtState) : StExt st st :=
  ⟨⟨[], by simp⟩, ⟨[], by simp⟩⟩

theorem stExt_trans {s1 s2 s3 : FmtState} (h12 : StExt s1 s2) (h23 : StExt s2 s3) :
    StExt s1 s3 := by
  obtain ⟨⟨e1, he1⟩, ⟨a1, ha1⟩⟩ := h12
  obtain ⟨⟨e2, he2⟩, ⟨a2, ha2⟩⟩ := h23
  exact ⟨⟨e1 ++ e2, by simp [he2, he1]⟩, ⟨a1 ++ a2, by simp [ha2, ha1]⟩⟩

theorem checkCircular_prim (p : JSPrim) (path : String) (av : List VisitRecord) :
    checkCircular (.prim p) path av = (none, av) := rfl

theorem checkCircular_found {av : List VisitRecord} {v : JSVal} {r0 : VisitRecord}
    (hc : isComplex v = true) (hf : av.find? (fun r => r.value == v) = some r0)
    (path : String) : checkCircular v path av = (some r0.path, av) := by
  simp [checkCircular, hc, hf]

theorem checkCircular_new {av : List VisitRecord} {v : JSVal}
    (hc : isComplex v = true) (hf : av.find? (fun r => r.value == v) = none)
    (path : String) : checkCircular v path av = (none, av ++ [⟨v, path⟩]) := by
  simp [checkCircular, hc, hf]

/-- Formatting a primitive returns some result and leaves the state untouched
(primitives are never registered in the visit table and never extracted). -/
theorem format_prim_state (h : Heap) (opts : IOption) (n : Nat) (p : JSPrim)
    (path : String) (st : FmtState) :
    ∃ r, format h opts (n + 1) (.prim p) path st = some (r, st) := by
  cases p <;>
    simp [format, checkCircular_prim, isError_prim, isPrimitive, formatSymbol]

/-- Formatting an already-visited complex value returns the `$circular`
marker carrying the first-seen path, and leaves the state untouched. -/
theorem format_visited {h : Heap} {opts : IOption} {n : Nat} {v : JSVal}
    {st : FmtState} {r0 : VisitRecord}
    (hc : isComplex v = true) (hf : st.allValues.find? (fun r => r.value == v) = some r0)
    (path : String) :
    format h opts (n + 1) v path st = some (.circular r0.path, st) := by
  cases v with
  | prim p => simp [isComplex] at hc
  | ref a =>
    simp only [format]
    rw [if_neg (by simp), checkCircular_found hc hf]

/-- Formatting an unvisited error-like value: the value is registered in the
visit table, assigned id `errors.length`, appended to the error list, and
formatted as the `$error` object with the `*[id]` stack token. -/
theorem format_error_step {h : Heap} {opts : IOption} {n : Nat} {v : JSVal}
    {st : FmtState}
    (hE : isError h v = true) (hf : st.allValues.find? (fun r => r.value == v) = none)
    (path : String) :
    format h opts (n + 1) v path st =
      some (.errorF (errorFields h v st.errors.length),
        ⟨st.errors ++ [(v, st.errors.length)], st.allValues ++ [⟨v, path⟩]⟩) := by
  cases v with
  | prim p => rw [isError_prim] at hE; cases hE
  | ref a =>
    simp only [format]
    rw [if_neg (by simp), checkCircular_new (by rfl) hf]
    simp [hE]

/-- Formatting an unvisited, non-error reference whose node is a date, a
buffer, a function, or missing: the value is registered and the matching
encoder's result is returned. -/
theorem format_leaf_step {h : Heap} {opts : IOption} {n : Nat} {a : Addr}
    {st : FmtState}
    (hf : st.allValues.find? (fun r => r.value == .ref a) = none)
    (hE : isError h (.ref a) = false)
    (hn : ∀ isErrInst ctorName fields proto,
        h.nodes[a]? ≠ some (.obj isErrInst ctorName fields proto))
    (hna : ∀ elems, h.nodes[a]? ≠ some (.arr elems))
    (path : String) :
    ∃ r, format h opts (n + 1) (.ref a) path st =
      some (r, ⟨st.errors, st.allValues ++ [⟨.ref a, path⟩]⟩) := by
  simp only [format]
  rw [if_neg (by simp), checkCircular_new (by rfl) hf]
  simp only [hE, Bool.false_eq_true, if_false, isPrimitive]
  cases hnode : h.nodes[a]? with
  | none => exact ⟨.fnull, rfl⟩
  | some node =>
    cases node with
    | obj isErrInst ctorName fields proto => exact absurd hnode (hn _ _ _ _)
    | arr elems => exact absurd hnode (hna _)
    | date iso => exact ⟨formatDate iso, rfl⟩
    | buf bytes => exact ⟨formatBuffer bytes opts.maxBufferLength, rfl⟩
    | fn name src => exact ⟨formatFunction name src opts.maxFunctionSourceLength, rfl⟩

/-- Formatting an unvisited, non-error array: the array is registered, then
the elements are formatted left to right with path suffixes `[i]`. -/
theorem format_arr_step {h : Heap} {opts : IOption} {n : Nat} {a : Addr}
    {st : FmtState} {elems : List JSVal}
    (hf : st.allValues.find? (fun r => r.value == .ref a) = none)
    (hE : isError h (.ref a) = false)
    (hn : h.nodes[a]? = some (.arr elems))
    (path : String) :
    format h opts (n + 1) (.ref a) path st =
      Option.map (fun x => (FProp.arrF x.1, x.2))
        (mapFmt (format h opts n) path elems 0
          ⟨st.errors, st.allValues ++ [⟨.ref a, path⟩]⟩) := by
  simp only [format]
  rw [if_neg (by simp), checkCircular_new (by rfl) hf]
  simp only [hE, Bool.false_eq_true, if_false, isPrimitive, hn]
  cases mapFmt (format h opts n) path elems 0 ⟨st.errors, st.allValues ++ [⟨.ref a, path⟩]⟩ with
  | none => rfl
  | some x => rfl

/-- Formatting an unvisited, non-error plain object: the object is
registered, then its `for..in` keys are formatted with path suffixes
`.key`. -/
theorem format_obj_step {h : Heap} {opts : IOption} {n : Nat} {a : Addr}
    {st : FmtState} {isErrInst : Bool} {ctorName : Option String}
    {fields : List JSField} {proto : Option Addr}
    (hf : st.allValues.find? (fun r => r.value == .ref a) = none)
    (hE : isError h (.ref a) = false)
    (hn : h.nodes[a]? = some (.obj isErrInst ctorName fields proto))
    (path : String) :
    format h opts (n + 1) (.ref a) path st =
      Option.map (fun x => (FProp.objF x.1, x.2))
        (fieldsFmt (format h opts n) h a path (forInKeys h a)
          ⟨st.errors, st.allValues ++ [⟨.ref a, path⟩]⟩) := by
  simp only [format]
  rw [if_neg (by simp), checkCircular_new (by rfl) hf]
  simp only [hE, Bool.false_eq_true, if_false, isPrimitive, hn]
  cases fieldsFmt (format h opts n) h a path (forInKeys h a)
      ⟨st.errors, st.allValues ++ [⟨.ref a, path⟩]⟩ with
  | none => rfl
  | some x => rfl

/-- Mapping a state-extending formatter over array elements extends the state. -/
theorem mapFmt_ext {f : JSVal → String → FmtState → Option (FProp × FmtState)} {path : String}
    (hf : ∀ v p st r st', f v p st = some (r, st') → StExt st st') :
    ∀ (vs : List JSVal) (i : Nat) (st : FmtState) (rs : List FProp) (st' : FmtState),
      mapFmt f path vs i st = some (rs, st') → StExt st st' := by
  intro vs
  induction vs with
  | nil =>
    intro i st rs st' hm
    simp only [mapFmt, Option.some.injEq, Prod.mk.injEq] at hm
    rw [← hm.2]
    exact stExt_refl st
  | cons v vs ih =>
    intro i st rs st' hm
    simp only [mapFmt] at hm
    cases hfv : f v (path ++ "[" ++ toString i ++ "]") st with
    | none => simp only [hfv] at hm; cases hm
    | some rst1 =>
      obtain ⟨r1, st1⟩ := rst1
      simp only [hfv] at hm
      cases hm2 : mapFmt f path vs (i + 1) st1 with
      | none => simp only [hm2] at hm; cases hm
      | some rst2 =>
        obtain ⟨rs2, st2⟩ := rst2
        simp only [hm2, Option.some.injEq, Prod.mk.injEq] at hm
        exact stExt_trans (hf v _ st r1 st1 hfv)
          (stExt_trans (ih (i + 1) st1 rs2 st2 hm2) (by rw [hm.2]; exact stExt_refl _))

/-- Formatting each object key with a state-extending formatter extends the state. -/
theorem fieldsFmt_ext {f : JSVal → String → FmtState → Option (FProp × FmtState)}
    {h : Heap} {a : Addr} {path : String}
    (hf : ∀ v p st r st', f v p st = some (r, st') → StExt st st') :
    ∀ (ks : List String) (st : FmtState) (rs : List (String × FProp)) (st' : FmtState),
      fieldsFmt f h a path ks st = some (rs, st') → StExt st st' := by
  intro ks
  induction ks with
  | nil =>
    intro st rs st' hm
    simp only [fieldsFmt, Option.some.injEq, Prod.mk.injEq] at hm
    rw [← hm.2]
    exact stExt_refl st
  | cons k ks ih =>
    intro st rs st' hm
    simp only [fieldsFmt] at hm
    cases hfv : f (getProp h a k) (path ++ "." ++ k) st with
    | none => simp only [hfv] at hm; cases hm
    | some rst1 =>
      obtain ⟨r1, st1⟩ := rst1
      simp only [hfv] at hm
      cases hm2 : fieldsFmt f h a path ks st1 with
      | none => simp only [hm2] at hm; cases hm
      | some rst2 =>
        obtain ⟨rs2, st2⟩ := rst2
        simp only [hm2, Option.some.injEq, Prod.mk.injEq] at hm
        exact stExt_trans (hf _ _ st r1 st1 hfv)
          (stExt_trans (ih st1 rs2 st2 hm2) (by rw [hm.2]; exact stExt_refl _))

/-- `format` only ever appends to the error list and the visit table. -/
theorem format_ext (h : Heap) (opts : IOption) :
    ∀ (n : Nat) (v : JSVal) (path : String) (st : FmtState) (r : FProp) (st' : FmtState),
      format h opts n v path st = some (r, st') → StExt st st' := by
  intro n
  induction n with
  | zero => intro v path st r st' hm; cases hm
  | succ n ih =>
    intro v path st r st' hm
    cases v with
    | prim p =>
      obtain ⟨r0, hr0⟩ := format_prim_state h opts n p path st
      rw [hr0] at hm
      simp only [Option.some.injEq, Prod.mk.injEq] at hm
      rw [← hm.2]
      exact stExt_refl st
    | ref a =>
      cases hfind : st.allValues.find? (fun r => r.value == .ref a) with
      | some r0 =>
        rw [format_visited (by rfl) hfind path] at hm
        simp only [Option.some.injEq, Prod.mk.injEq] at hm
        rw [← hm.2]
        exact stExt_refl st
      | none =>
        cases hE : isError h (.ref a) with
        | true =>
          rw [format_error_step hE hfind path] at hm
          simp only [Option.some.injEq, Prod.mk.injEq] at hm
          rw [← hm.2]
          exact ⟨⟨_, rfl⟩, ⟨_, rfl⟩⟩
        | false =>
          cases hnode : h.nodes[a]? with
          | none =>
            obtain ⟨r0, hr0⟩ := format_leaf_step hfind hE
              (by intro i c fs pr hcon; rw [hnode] at hcon; cases hcon)
              (by intro es hcon; rw [hnode] at hcon; cases hcon) path
            rw [hr0] at hm
            simp only [Option.some.injEq, Prod.mk.injEq] at hm
            rw [← hm.2]
            exact ⟨⟨[], by simp⟩, ⟨_, rfl⟩⟩
          | some node =>
            cases node with
            | date iso =>
              obtain ⟨r0, hr0⟩ := format_leaf_step hfind hE
                (by intro i c fs pr hcon; rw [hnode] at hcon; cases hcon)
                (by intro es hcon; rw [hnode] at hcon; cases hcon) path
              rw [hr0] at hm
              simp only [Option.some.injEq, Prod.mk.injEq] at hm
              rw [← hm.2]
              exact ⟨⟨[], by simp⟩, ⟨_, rfl⟩⟩
            | buf bytes =>
              obtain ⟨r0, hr0⟩ := format_leaf_step hfind hE
                (by intro i c fs pr hcon; rw [hnode] at hcon; cases hcon)
                (by intro es hcon; rw [hnode] at hcon; cases hcon) path
              rw [hr0] at hm
              simp only [Option.some.injEq, Prod.mk.injEq] at hm
              rw [← hm.2]
              exact ⟨⟨[], by simp⟩, ⟨_, rfl⟩⟩
            | fn name src =>
              obtain ⟨r0, hr0⟩ := format_leaf_step hfind hE
                (by intro i c fs pr hcon; rw [hnode] at hcon; cases hcon)
                (by intro es hcon; rw [hnode] at hcon; cases hcon) path
              rw [hr0] at hm
              simp only [Option.some.injEq, Prod.mk.injEq] at hm
              rw [← hm.2]
              exact ⟨⟨[], by simp⟩, ⟨_, rfl⟩⟩
            | arr elems =>
              rw [format_arr_step hfind hE hnode path] at hm
              cases hmm : mapFmt (format h opts n) path elems 0
                  ⟨st.errors, st.allValues ++ [⟨.ref a, path⟩]⟩ with
              | none => rw [hmm] at hm; cases hm
              | some rst2 =>
                rw [hmm] at hm
                simp only [Option.map_some', Option.some.injEq, Prod.mk.injEq] at hm
                have hext := mapFmt_ext (fun v p st r st' => ih v p st r st') elems 0 _ rst2.1 rst2.2 (by rw [hmm])
                rw [← hm.2]
                exact stExt_trans ⟨⟨[], by simp⟩, ⟨_, rfl⟩⟩ hext
            | obj isErrInst ctorName fields proto =>
              rw [format_obj_step hfind hE hnode path] at hm
              cases hmm : fieldsFmt (format h opts n) h a path (forInKeys h a)
                  ⟨st.errors, st.allValues ++ [⟨.ref a, path⟩]⟩ with
              | none => rw [hmm] at hm; cases hm
              | some rst2 =>
                rw [hmm] at hm
                simp only [Option.map_some', Option.some.injEq, Prod.mk.injEq] at hm
                have hext := fieldsFmt_ext (fun v p st r st' => ih v p st r st') (forInKeys h a) _ rst2.1 rst2.2 (by rw [hmm])
                rw [← hm.2]
                exact stExt_trans ⟨⟨[], by simp⟩, ⟨_, rfl⟩⟩ hext

/-- Mapping an invariant-preserving formatter over array elements preserves
the invariant. -/
theorem mapFmt_pres {f : JSVal → String → FmtState → Option (FProp × FmtState)} {path : String}
    (P : FmtState → Prop)
    (hf : ∀ v p st r st', P st → f v p st = some (r, st') → P st') :
    ∀ (vs : List JSVal) (i : Nat) (st : FmtState) (rs : List FProp) (st' : FmtState),
      P st → mapFmt f path vs i st = some (rs, st') → P st' := by
  intro vs
  induction vs with
  | nil =>
    intro i st rs st' hP hm
    simp only [mapFmt, Option.some.injEq, Prod.mk.injEq] at hm
    rw [← hm.2]
    exact hP
  | cons v vs ih =>
    intro i st rs st' hP hm
    simp only [mapFmt] at hm
    cases hfv : f v (path ++ "[" ++ toString i ++ "]") st with
    | none => simp only [hfv] at hm; cases hm
    | some rst1 =>
      obtain ⟨r1, st1⟩ := rst1
      simp only [hfv] at hm
      cases hm2 : mapFmt f path vs (i + 1) st1 with
      | none => simp only [hm2] at hm; cases hm
      | some rst2 =>
        obtain ⟨rs2, st2⟩ := rst2
        simp only [hm2, Option.some.injEq, Prod.mk.injEq] at hm
        rw [← hm.2]
        exact ih (i + 1) st1 rs2 st2 (hf v _ st r1 st1 hP hfv) hm2

/-- Formatting object keys with an invariant-preserving formatter preserves
the invariant. -/
theorem fieldsFmt_pres {f : JSVal → String → FmtState → Option (FProp × FmtState)}
    {h : Heap} {a : Addr} {path : String} (P : FmtState → Prop)
    (hf : ∀ v p st r st', P st → f v p st = some (r, st') → P st') :
    ∀ (ks : List String) (st : FmtState) (rs : List (String × FProp)) (st' : FmtState),
      P st → fieldsFmt f h a path ks st = some (rs, st') → P st' := by
  intro ks
  induction ks with
  | nil =>
    intro st rs st' hP hm
    simp only [fieldsFmt, Option.some.injEq, Prod.mk.injEq] at hm
    rw [← hm.2]
    exact hP
  | cons k ks ih =>
    intro st rs st' hP hm
    simp only [fieldsFmt] at hm
    cases hfv : f (getProp h a k) (path ++ "." ++ k) st with
    | none => simp only [hfv] at hm; cases hm
    | some rst1 =>
      obtain ⟨r1, st1⟩ := rst1
      simp only [hfv] at hm
      cases hm2 : fieldsFmt f h a path ks st1 with
      | none => simp only [hm2] at hm; cases hm
      | some rst2 =>
        obtain ⟨rs2, st2⟩ := rst2
        simp only [hm2, Option.some.injEq, Prod.mk.injEq] at hm
        rw [← hm.2]
        exact ih st1 rs2 st2 (hf _ _ st r1 st1 hP hfv) hm2

/-- `format` touches its state only through `checkCircular` registration and
error extraction: every state property closed under those two updates is an
invariant of the whole recursion. -/
theorem format_pres (h : Heap) (opts : IOption) (P : FmtState → Prop)
    (hreg : ∀ (st : FmtState) (v : JSVal) (path : String),
      st.allValues.find? (fun r => r.value == v) = none →
      P st → P ⟨st.errors, st.allValues ++ [⟨v, path⟩]⟩)
    (hpush : ∀ (st : FmtState) (v : JSVal),
      P st → P ⟨st.errors ++ [(v, st.errors.length)], st.allValues⟩) :
    ∀ (n : Nat) (v : JSVal) (path : String) (st : FmtState) (r : FProp) (st' : FmtState),
      P st → format h opts n v path st = some (r, st') → P st' := by
  intro n
  induction n with
  | zero => intro v path st r st' hP hm; cases hm
  | succ n ih =>
    intro v path st r st' hP hm
    cases v with
    | prim p =>
      obtain ⟨r0, hr0⟩ := format_prim_state h opts n p path st
      rw [hr0] at hm
      simp only [Option.some.injEq, Prod.mk.injEq] at hm
      rw [← hm.2]
      exact hP
    | ref a =>
      cases hfind : st.allValues.find? (fun r => r.value == .ref a) with
      | some r0 =>
        rw [format_visited (by rfl) hfind path] at hm
        simp only [Option.some.injEq, Prod.mk.injEq] at hm
        rw [← hm.2]
        exact hP
      | none =>
        have hP1 : P ⟨st.errors, st.allValues ++ [⟨.ref a, path⟩]⟩ := hreg st _ path hfind hP
        cases hE : isError h (.ref a) with
        | true =>
          rw [format_error_step hE hfind path] at hm
          simp only [Option.some.injEq, Prod.mk.injEq] at hm
          rw [← hm.2]
          exact hpush ⟨st.errors, st.allValues ++ [⟨.ref a, path⟩]⟩ (.ref a) hP1
        | false =>
          cases hnode : h.nodes[a]? with
          | none =>
            obtain ⟨r0, hr0⟩ := format_leaf_step hfind hE
              (by intro i c fs pr hcon; rw [hnode] at hcon; cases hcon)
              (by intro es hcon; rw [hnode] at hcon; cases hcon) path
            rw [hr0] at hm
            simp only [Option.some.injEq, Prod.mk.injEq] at hm
            rw [← hm.2]
            exact hP1
          | some node =>
            cases node with
            | date iso =>
              obtain ⟨r0, hr0⟩ := format_leaf_step hfind hE
                (by intro i c fs pr hcon; rw [hnode] at hcon; cases hcon)
                (by intro es hcon; rw [hnode] at hcon; cases hcon) path
              rw [hr0] at hm
              simp only [Option.some.injEq, Prod.mk.injEq] at hm
              rw [← hm.2]
              exact hP1
            | buf bytes =>
              obtain ⟨r0, hr0⟩ := format_leaf_step hfind hE
                (by intro i c fs pr hcon; rw [hnode] at hcon; cases hcon)
                (by intro es hcon; rw [hnode] at hcon; cases hcon) path
              rw [hr0] at hm
              simp only [Option.some.injEq, Prod.mk.injEq] at hm
              rw [← hm.2]
              exact hP1
            | fn name src =>
              obtain ⟨r0, hr0⟩ := format_leaf_step hfind hE
                (by intro i c fs pr hcon; rw [hnode] at hcon; cases hcon)
                (by intro es hcon; rw [hnode] at hcon; cases hcon) path
              rw [hr0] at hm
              simp only [Option.some.injEq, Prod.mk.injEq] at hm
              rw [← hm.2]
              exact hP1
            | arr elems =>
              rw [format_arr_step hfind hE hnode path] at hm
              cases hmm : mapFmt (format h opts n) path elems 0
                  ⟨st.errors, st.allValues ++ [⟨.ref a, path⟩]⟩ with
              | none => rw [hmm] at hm; cases hm
              | some rst2 =>
                rw [hmm] at hm
                simp only [Option.map_some', Option.some.injEq, Prod.mk.injEq] at hm
                rw [← hm.2]
                exact mapFmt_pres P (fun v p st r st' => ih v p st r st') elems 0 _
                  rst2.1 rst2.2 hP1 (by rw [hmm])
            | obj isErrInst ctorName fields proto =>
              rw [format_obj_step hfind hE hnode path] at hm
              cases hmm : fieldsFmt (format h opts n) h a path (forInKeys h a)
                  ⟨st.errors, st.allValues ++ [⟨.ref a, path⟩]⟩ with
              | none => rw [hmm] at hm; cases hm
              | some rst2 =>
                rw [hmm] at hm
                simp only [Option.map_some', Option.some.injEq, Prod.mk.injEq] at hm
                rw [← hm.2]
                exact fieldsFmt_pres P (fun v p st r st' => ih v p st r st') (forInKeys h a) _
                  rst2.1 rst2.2 hP1 (by rw [hmm])

/-- A value is registered in the visit table when some record holds it. -/
def registered (av : List VisitRecord) (v : JSVal) : Bool :=
  av.any (fun r => r.value == v)

/-- The heap addresses not yet registered in the visit table: the measure
that shrinks every time the formatter expands a composite value. -/
def freeAddrs (h : Heap) (av : List VisitRecord) : List Addr :=
  (List.range h.nodes.length).filter (fun a => !(registered av (.ref a)))

theorem registered_append (av e : List VisitRecord) (v : JSVal) :
    registered (av ++ e) v = (registered av v || registered e v) := by
  simp [registered, List.any_append]

theorem registered_false_of_find?_none {av : List VisitRecord} {v : JSVal}
    (hf : av.find? (fun r => r.value == v) = none) : registered av v = false := by
  have hall := List.find?_eq_none.mp hf
  rw [registered]
  rw [List.any_eq_false]
  intro r hr
  exact hall r hr

theorem freeAddrs_append_le (h : Heap) (av e : List VisitRecord) :
    (freeAddrs h (av ++ e)).length ≤ (freeAddrs h av).length := by
  refine List.Sublist.length_le (List.monotone_filter_right _ ?_)
  intro a ha
  rw [registered_append] at ha
  simp only [Bool.not_or, Bool.and_eq_true] at ha
  exact ha.1

theorem getElem?_some_lt {h : Heap} {a : Addr} {node : JSNode}
    (hn : h.nodes[a]? = some node) : a < h.nodes.length := by
  by_contra hge
  rw [List.getElem?_eq_none (Nat.le_of_not_lt hge)] at hn
  cases hn

theorem freeAddrs_register_lt {h : Heap} {av : List VisitRecord} {a : Addr}
    (hlt : a < h.nodes.length) (hreg : registered av (.ref a) = false) (path : String) :
    (freeAddrs h (av ++ [⟨.ref a, path⟩])).length < (freeAddrs h av).length := by
  have hmem : a ∈ freeAddrs h av := by
    simp only [freeAddrs, List.mem_filter, List.mem_range]
    exact ⟨hlt, by rw [hreg]; rfl⟩
  have hnodup : (freeAddrs h av).Nodup := (List.nodup_range h.nodes.length).filter _
  have heq : freeAddrs h (av ++ [⟨.ref a, path⟩]) =
      (freeAddrs h av).filter (fun x => x != a) := by
    rw [freeAddrs, freeAddrs, List.filter_filter]
    refine List.filter_congr ?_
    intro x hx
    rw [registered_append]
    have hone : registered [⟨.ref a, path⟩] (.ref x) = (JSVal.ref a == JSVal.ref x) := by
      simp [registered]
    rw [hone]
    by_cases hxa : x = a
    · subst hxa
      simp
    · have h1 : (JSVal.ref a == JSVal.ref x) = false := by
        simp [beq_iff_eq]
        intro hcon
        exact hxa hcon.symm
      have h2 : (x != a) = true := by
        simp [bne_iff_ne]
        exact hxa
      rw [h1, h2]
      simp
  rw [heq, ← hnodup.erase_eq_filter a]
  rw [List.length_erase_of_mem hmem]
  have hpos : 0 < (freeAddrs h av).length := List.length_pos_of_mem hmem
  omega

theorem freeAddrs_nil (h : Heap) : freeAddrs h [] = List.range h.nodes.length := by
  simp [freeAddrs, registered]

/-- Array elements can all be formatted within the same fuel bound: the state
only ever grows, so the free-address measure never increases between elements. -/
theorem mapFmt_total {h : Heap} {f : JSVal → String → FmtState → Option (FProp × FmtState)}
    (path : String) {n : Nat}
    (hmono : ∀ v p st r st', f v p st = some (r, st') → StExt st st')
    (htot : ∀ v p st, (freeAddrs h st.allValues).length < n → (f v p st).isSome) :
    ∀ (vs : List JSVal) (i : Nat) (st : FmtState),
      (freeAddrs h st.allValues).length < n → (mapFmt f path vs i st).isSome := by
  intro vs
  induction vs with
  | nil => intro i st hlt; simp [mapFmt]
  | cons v vs ih =>
    intro i st hlt
    obtain ⟨rst1, hfv⟩ := Option.isSome_iff_exists.mp (htot v (path ++ "[" ++ toString i ++ "]") st hlt)
    obtain ⟨r1, st1⟩ := rst1
    obtain ⟨_, ⟨e2, he2⟩⟩ := hmono v _ st r1 st1 hfv
    have hlt1 : (freeAddrs h st1.allValues).length < n := by
      rw [he2]
      exact Nat.lt_of_le_of_lt (freeAddrs_append_le h st.allValues e2) hlt
    obtain ⟨rst2, hm2⟩ := Option.isSome_iff_exists.mp (ih (i + 1) st1 hlt1)
    simp only [mapFmt, hfv, hm2]
    rfl

/-- Object keys can all be formatted within the same fuel bound. -/
theorem fieldsFmt_total {h : Heap} {f : JSVal → String → FmtState → Option (FProp × FmtState)}
    (hp : Heap) (a : Addr) (path : String) {n : Nat}
    (hmono : ∀ v p st r st', f v p st = some (r, st') → StExt st st')
    (htot : ∀ v p st, (freeAddrs h st.allValues).length < n → (f v p st).isSome) :
    ∀ (ks : List String) (st : FmtState),
      (freeAddrs h st.allValues).length < n → (fieldsFmt f hp a path ks st).isSome := by
  intro ks
  induction ks with
  | nil => intro st hlt; simp [fieldsFmt]
  | cons k ks ih =>
    intro st hlt
    obtain ⟨rst1, hfv⟩ := Option.isSome_iff_exists.mp (htot (getProp hp a k) (path ++ "." ++ k) st hlt)
    obtain ⟨r1, st1⟩ := rst1
    obtain ⟨_, ⟨e2, he2⟩⟩ := hmono _ _ st r1 st1 hfv
    have hlt1 : (freeAddrs h st1.allValues).length < n := by
      rw [he2]
      exact Nat.lt_of_le_of_lt (freeAddrs_append_le h st.allValues e2) hlt
    obtain ⟨rst2, hm2⟩ := Option.isSome_iff_exists.mp (ih st1 hlt1)
    simp only [fieldsFmt, hfv, hm2]
    rfl

/-- Fuel exceeding the number of unregistered heap addresses suffices:
`format` never runs out.  Every expansion of a composite value registers a
fresh address, so the recursion depth is bounded by the heap size. -/
theorem format_total (h : Heap) (opts : IOption) :
    ∀ (n : Nat) (v : JSVal) (path : String) (st : FmtState),
      (freeAddrs h st.allValues).length < n → (format h opts n v path st).isSome := by
  intro n
  induction n with
  | zero => intro v path st hlt; cases hlt
  | succ n ih =>
    intro v path st hlt
    cases v with
    | prim p =>
      obtain ⟨r0, hr0⟩ := format_prim_state h opts n p path st
      rw [hr0]
      rfl
    | ref a =>
      cases hfind : st.allValues.find? (fun r => r.value == .ref a) with
      | some r0 =>
        rw [format_visited (by rfl) hfind path]
        rfl
      | none =>
        cases hE : isError h (.ref a) with
        | true =>
          rw [format_error_step hE hfind path]
          rfl
        | false =>
          cases hnode : h.nodes[a]? with
          | none =>
            obtain ⟨r0, hr0⟩ := format_leaf_step hfind hE
              (by intro i c fs pr hcon; rw [hnode] at hcon; cases hcon)
              (by intro es hcon; rw [hnode] at hcon; cases hcon) path
            rw [hr0]
            rfl
          | some node =>
            have hreg0 : registered st.allValues (.ref a) = false :=
              registered_false_of_find?_none hfind
            cases node with
            | date iso =>
              obtain ⟨r0, hr0⟩ := format_leaf_step hfind hE
                (by intro i c fs pr hcon; rw [hnode] at hcon; cases hcon)
                (by intro es hcon; rw [hnode] at hcon; cases hcon) path
              rw [hr0]
              rfl
            | buf bytes =>
              obtain ⟨r0, hr0⟩ := format_leaf_step hfind hE
                (by intro i c fs pr hcon; rw [hnode] at hcon; cases hcon)
                (by intro es hcon; rw [hnode] at hcon; cases hcon) path
              rw [hr0]
              rfl
            | fn name src =>
              obtain ⟨r0, hr0⟩ := format_leaf_step hfind hE
                (by intro i c fs pr hcon; rw [hnode] at hcon; cases hcon)
                (by intro es hcon; rw [hnode] at hcon; cases hcon) path
              rw [hr0]
              rfl
            | arr elems =>
              rw [format_arr_step hfind hE hnode path]
              have hlt1 : (freeAddrs h (st.allValues ++ [⟨.ref a, path⟩])).length < n := by
                have hdrop := freeAddrs_register_lt (getElem?_some_lt hnode) hreg0 path
                omega
              have hms := mapFmt_total path (fun v p st r st' => format_ext h opts n v p st r st')
                (fun v p st hl => ih v p st hl) elems 0
                ⟨st.errors, st.allValues ++ [⟨.ref a, path⟩]⟩ hlt1
              obtain ⟨rst2, hm2⟩ := Option.isSome_iff_exists.mp hms
              rw [hm2]
              rfl
            | obj isErrInst ctorName fields proto =>
              rw [format_obj_step hfind hE hnode path]
              have hlt1 : (freeAddrs h (st.allValues ++ [⟨.ref a, path⟩])).length < n := by
                have hdrop := freeAddrs_register_lt (getElem?_some_lt hnode) hreg0 path
                omega
              have hms := fieldsFmt_total h a path (fun v p st r st' => format_ext h opts n v p st r st')
                (fun v p st hl => ih v p st hl) (forInKeys h a)
                ⟨st.errors, st.allValues ++ [⟨.ref a, path⟩]⟩ hlt1
              obtain ⟨rst2, hm2⟩ := Option.isSome_iff_exists.mp hms
              rw [hm2]
              rfl

/-- `formatMeta` always terminates with a result: the built-in fuel
`heap size + 1` exceeds the number of unregistered addresses of the fresh
call-scoped state. -/
theorem formatMeta_total (h : Heap) (opts : IOption) (meta : JSVal) :
    (formatMeta h opts meta).isSome := by
  have hlt : (freeAddrs h (([] : List VisitRecord))).length < h.nodes.length + 1 := by
    rw [freeAddrs_nil]
    simp
  have hs := format_total h opts (h.nodes.length + 1) meta "$root" ⟨[], []⟩ hlt
  obtain ⟨⟨r, st⟩, hr⟩ := Option.isSome_iff_exists.mp hs
  rw [formatMeta, hr]
  rfl

/-- The keys of a formatted object are exactly the enumerated keys, in order. -/
theorem fieldsFmt_keys {f : JSVal → String → FmtState → Option (FProp × FmtState)}
    {h : Heap} {a : Addr} {path : String} :
    ∀ (ks : List String) (st : FmtState) (rs : List (String × FProp)) (st' : FmtState),
      fieldsFmt f h a path ks st = some (rs, st') → rs.map Prod.fst = ks := by
  intro ks
  induction ks with
  | nil =>
    intro st rs st' hm
    simp only [fieldsFmt, Option.some.injEq, Prod.mk.injEq] at hm
    rw [← hm.1]
    rfl
  | cons k ks ih =>
    intro st rs st' hm
    simp only [fieldsFmt] at hm
    cases hfv : f (getProp h a k) (path ++ "." ++ k) st with
    | none => simp only [hfv] at hm; cases hm
    | some rst1 =>
      obtain ⟨r1, st1⟩ := rst1
      simp only [hfv] at hm
      cases hm2 : fieldsFmt f h a path ks st1 with
      | none => simp only [hm2] at hm; cases hm
      | some rst2 =>
        obtain ⟨rs2, st2⟩ := rst2
        simp only [hm2, Option.some.injEq, Prod.mk.injEq] at hm
        rw [← hm.1]
        simp only [List.map_cons]
        rw [ih st1 rs2 st2 hm2]

/-- Registering a value not yet in the visit table keeps the tracked values
duplicate-free. -/
theorem nodup_register {av : List VisitRecord} {v : JSVal}
    (hf : av.find? (fun r => r.value == v) = none)
    (hnd : (av.map VisitRecord.value).Nodup) (path : String) :
    ((av ++ [(⟨v, path⟩ : VisitRecord)]).map VisitRecord.value).Nodup := by
  have hall := List.find?_eq_none.mp hf
  rw [List.map_append]
  rw [List.nodup_append]
  refine ⟨hnd, List.nodup_singleton v, ?_⟩
  intro x hx hxv
  simp only [List.map_cons, List.map_nil, List.mem_singleton] at hxv
  subst hxv
  obtain ⟨r, hr, hrv⟩ := List.mem_map.mp hx
  have := hall r hr
  simp only [beq_iff_eq] at this
  exact this hrv

/-- The visit table never holds two records for the same value (by identity):
`format` preserves duplicate-freedom of the tracked values. -/
theorem format_nodup (h : Heap) (opts : IOption) :
    ∀ (n : Nat) (v : JSVal) (path : String) (st : FmtState) (r : FProp) (st' : FmtState),
      (st.allValues.map VisitRecord.value).Nodup →
      format h opts n v path st = some (r, st') →
      (st'.allValues.map VisitRecord.value).Nodup := by
  intro n v path st r st' hnd hm
  exact format_pres h opts (fun st => (st.allValues.map VisitRecord.value).Nodup)
    (fun st v path hf hP => nodup_register hf hP path)
    (fun st v hP => hP) n v path st r st' hnd hm

/-- Error ids stay sequential (`0, 1, 2, …` in list order) across any
formatting step: each extraction uses the current list length as the id. -/
theorem format_errids (h : Heap) (opts : IOption) :
    ∀ (n : Nat) (v : JSVal) (path : String) (st : FmtState) (r : FProp) (st' : FmtState),
      st.errors.map Prod.snd = List.range st.errors.length →
      format h opts n v path st = some (r, st') →
      st'.errors.map Prod.snd = List.range st'.errors.length := by
  intro n v path st r st' hids hm
  refine format_pres h opts (fun st => st.errors.map Prod.snd = List.range st.errors.length)
    (fun st v path hf hP => hP)
    (fun st v hP => ?_) n v path st r st' hids hm
  simp only [List.map_append, List.length_append, List.map_cons, List.map_nil,
    List.length_cons, List.length_nil]
  rw [hP]
  rw [List.range_succ]

/-- Pre-order registration: formatting an unvisited complex value puts its
visit record into the table immediately, before any child's record. -/
theorem format_preorder (h : Heap) (opts : IOption) :
    ∀ (n : Nat) (v : JSVal) (path : String) (st : FmtState) (r : FProp) (st' : FmtState),
      isComplex v = true →
      st.allValues.find? (fun r0 => r0.value == v) = none →
      format h opts (n + 1) v path st = some (r, st') →
      ∃ rest, st'.allValues = st.allValues ++ ⟨v, path⟩ :: rest := by
  intro n v path st r st' hc hfind hm
  cases v with
  | prim p => simp [isComplex] at hc
  | ref a =>
    cases hE : isError h (.ref a) with
    | true =>
      rw [format_error_step hE hfind path] at hm
      simp only [Option.some.injEq, Prod.mk.injEq] at hm
      rw [← hm.2]
      exact ⟨[], rfl⟩
    | false =>
      cases hnode : h.nodes[a]? with
      | none =>
        obtain ⟨r0, hr0⟩ := format_leaf_step hfind hE
          (by intro i c fs pr hcon; rw [hnode] at hcon; cases hcon)
          (by intro es hcon; rw [hnode] at hcon; cases hcon) path
        rw [hr0] at hm
        simp only [Option.some.injEq, Prod.mk.injEq] at hm
        rw [← hm.2]
        exact ⟨[], rfl⟩
      | some node =>
        cases node with
        | date iso =>
          obtain ⟨r0, hr0⟩ := format_leaf_step hfind hE
            (by intro i c fs pr hcon; rw [hnode] at hcon; cases hcon)
            (by intro es hcon; rw [hnode] at hcon; cases hcon) path
          rw [hr0] at hm
          simp only [Option.some.injEq, Prod.mk.injEq] at hm
          rw [← hm.2]
          exact ⟨[], rfl⟩
        | buf bytes =>
          obtain ⟨r0, hr0⟩ := format_leaf_step hfind hE
            (by intro i c fs pr hcon; rw [hnode] at hcon; cases hcon)
            (by intro es hcon; rw [hnode] at hcon; cases hcon) path
          rw [hr0] at hm
          simp only [Option.some.injEq, Prod.mk.injEq] at hm
          rw [← hm.2]
          exact ⟨[], rfl⟩
        | fn name src =>
          obtain ⟨r0, hr0⟩ := format_leaf_step hfind hE
            (by intro i c fs pr hcon; rw [hnode] at hcon; cases hcon)
            (by intro es hcon; rw [hnode] at hcon; cases hcon) path
          rw [hr0] at hm
          simp only [Option.some.injEq, Prod.mk.injEq] at hm
          rw [← hm.2]
          exact ⟨[], rfl⟩
        | arr elems =>
          rw [format_arr_step hfind hE hnode path] at hm
          cases hmm : mapFmt (format h opts n) path elems 0
              ⟨st.errors, st.allValues ++ [⟨.ref a, path⟩]⟩ with
          | none => rw [hmm] at hm; cases hm
          | some rst2 =>
            rw [hmm] at hm
            simp only [Option.map_some', Option.some.injEq, Prod.mk.injEq] at hm
            obtain ⟨_, ⟨e2, he2⟩⟩ := mapFmt_ext (fun v p st r st' => format_ext h opts n v p st r st')
              elems 0 _ rst2.1 rst2.2 (by rw [hmm])
            rw [← hm.2, he2]
            exact ⟨e2, by simp⟩
        | obj isErrInst ctorName fields proto =>
          rw [format_obj_step hfind hE hnode path] at hm
          cases hmm : fieldsFmt (format h opts n) h a path (forInKeys h a)
              ⟨st.errors, st.allValues ++ [⟨.ref a, path⟩]⟩ with
          | none => rw [hmm] at hm; cases hm
          | some rst2 =>
            rw [hmm] at hm
            simp only [Option.map_some', Option.some.injEq, Prod.mk.injEq] at hm
            obtain ⟨_, ⟨e2, he2⟩⟩ := fieldsFmt_ext (fun v p st r st' => format_ext h opts n v p st r st')
              (forInKeys h a) _ rst2.1 rst2.2 (by rw [hmm])
            rw [← hm.2, he2]
            exact ⟨e2, by simp⟩

/-- Formatting an unvisited, non-error object yields an object tree whose
keys are exactly the `for..in` keys, in order. -/
theorem format_obj_keys {h : Heap} {opts : IOption} {n : Nat} {a : Addr}
    {st : FmtState} {isErrInst : Bool} {ctorName : Option String}
    {fields : List JSField} {proto : Option Addr} {r : FProp} {st' : FmtState}
    (hf : st.allValues.find? (fun r0 => r0.value == .ref a) = none)
    (hE : isError h (.ref a) = false)
    (hn : h.nodes[a]? = some (.obj isErrInst ctorName fields proto))
    (path : String)
    (hm : format h opts (n + 1) (.ref a) path st = some (r, st')) :
    ∃ entries, r = .objF entries ∧ entries.map Prod.fst = forInKeys h a := by
  rw [format_obj_step hf hE hn path] at hm
  cases hmm : fieldsFmt (format h opts n) h a path (forInKeys h a)
      ⟨st.errors, st.allValues ++ [⟨.ref a, path⟩]⟩ with
  | none => rw [hmm] at hm; cases hm
  | some rst2 =>
    rw [hmm] at hm
    simp only [Option.map_some', Option.some.injEq, Prod.mk.injEq] at hm
    exact ⟨rst2.1, hm.1.symm, fieldsFmt_keys (forInKeys h a) _ rst2.1 rst2.2 (by rw [hmm])⟩

/-- Exhausted fuel or a missing prototype ends the `for..in` chain walk. -/
theorem forInKeysAux_none (h : Heap) (n : Nat) (seen : List String) :
    forInKeysAux h n none seen = [] := by
  cases n <;> rfl

/-- `for..in` over an object with no prototype enumerates exactly its own
enumerable keys, in declaration order. -/
theorem forInKeys_no_proto {h : Heap} {a : Addr} {ei : Bool} {cn : Option String}
    {F : List JSField} (hn : h.nodes[a]? = some (.obj ei cn F none)) :
    forInKeys h a = (F.filter (fun f => f.enumerable)).map (fun f => f.key) := by
  rw [forInKeys]
  rw [forInKeysAux]
  rw [hn]
  have hfc : F.filter (fun f => f.enumerable && !(List.contains [] f.key)) =
      F.filter (fun f => f.enumerable) := by
    refine List.filter_congr ?_
    intro f hf
    simp
  simp only [hfc]
  rw [forInKeysAux_none]
  simp

/-- `for..in` over an object whose prototype chain has one further level
enumerates the own enumerable keys followed by the prototype's enumerable
keys not shadowed by any own key. -/
theorem forInKeys_one_proto {h : Heap} {a b : Addr} {ei ei2 : Bool}
    {cn cn2 : Option String} {F G : List JSField}
    (hn : h.nodes[a]? = some (.obj ei cn F (some b)))
    (hb : h.nodes[b]? = some (.obj ei2 cn2 G none)) :
    forInKeys h a =
      (F.filter (fun f => f.enumerable)).map (fun f => f.key)
        ++ (G.filter (fun g => g.enumerable
              && !((F.map (fun f => f.key)).contains g.key))).map (fun g => g.key) := by
  have hblt : b < h.nodes.length := getElem?_some_lt hb
  obtain ⟨m, hm⟩ : ∃ m, h.nodes.length = m + 1 :=
    ⟨h.nodes.length - 1,
      (Nat.succ_pred_eq_of_pos (Nat.lt_of_le_of_lt (Nat.zero_le b) hblt)).symm⟩
  rw [forInKeys, hm]
  rw [forInKeysAux]
  rw [hn]
  have hfc : F.filter (fun f => f.enumerable && !(List.contains [] f.key)) =
      F.filter (fun f => f.enumerable) := by
    refine List.filter_congr ?_
    intro f hf
    simp
  simp only [hfc]
  rw [forInKeysAux]
  rw [hb]
  simp [forInKeysAux_none]

/-- C1 counterexample to "exactly one `$circular` marker": the object of
heap `H1c` contains itself directly at two properties (`o.a = o` and
`o.b = o`), and its formatted tree carries two `$circular` markers, not
exactly one. -/
theorem C1_counterexample :
    getProp H1c 0 "a" = JSVal.ref 0 ∧
    getProp H1c 0 "b" = JSVal.ref 0 ∧
    formatMeta H1c {} (.ref 0) =
      some (.objF [("a", .circular "$root"), ("b", .circular "$root")], []) ∧
    countCircular (.objF [("a", .circular "$root"), ("b", .circular "$root")]) = 2 ∧
    ¬ countCircular (.objF [("a", .circular "$root"), ("b", .circular "$root")]) = 1 :=
  ⟨by rfl, by rfl, by rfl, by rfl, by decide⟩

/-- C1 as amended: for every metadata value — in particular every
self-containing one — `format` terminates; every re-encounter of an
already-visited composite value is formatted as a `$circular` marker whose
path is the path at which the value was first seen; and the scenario
`o.self = o` formatted from the root yields `{ self: { $circular: "$root" } }`. -/
theorem C1_circular_markers :
    (∀ (h : Heap) (opts : IOption) (meta : JSVal), (formatMeta h opts meta).isSome) ∧
    (∀ (h : Heap) (opts : IOption) (n : Nat) (v : JSVal) (path : String)
        (st : FmtState) (r0 : VisitRecord),
      isComplex v = true →
      st.allValues.find? (fun rec0 => rec0.value == v) = some r0 →
      format h opts (n + 1) v path st = some (.circular r0.path, st)) ∧
    formatMeta H1 {} (.ref 0) = some (.objF [("self", .circular "$root")], []) := by
  refine ⟨fun h opts meta => formatMeta_total h opts meta, ?_, by rfl⟩
  intro h opts n v path st r0 hc hf
  exact format_visited hc hf path

/-- Witness for C1's marker conjunct: re-encountering the self-referential
object of `H1` at path `$root.self` yields the `$circular "$root"` marker. -/
theorem C1_circular_markers_witness :
    format H1 {} (0 + 1) (.ref 0) "$root.self"
        ⟨[], [⟨.ref 0, "$root"⟩]⟩ =
      some (.circular "$root", ⟨[], [⟨.ref 0, "$root"⟩]⟩) :=
  C1_circular_markers.2.1 H1 {} 0 (.ref 0) "$root.self"
    ⟨[], [⟨.ref 0, "$root"⟩]⟩ ⟨.ref 0, "$root"⟩ (by rfl) (by rfl)

/-- C2: an unvisited error-like value is assigned id `errors.length`,
appended to the call-scoped error list, and formatted as `{$error: …}` with
every own property except `stack` copied verbatim and `stack` replaced by
the `*[id]` token (`errorFields`); ids stay sequential from 0 in
first-encounter order; and the `{ list: [errA, errB] }` scenario yields
stack tokens `*[0]`, `*[1]` and the exception text
`[0]: <errA stack>`, blank line, `[1]: <errB stack>`. -/
theorem C2_error_extraction :
    (∀ (h : Heap) (opts : IOption) (n : Nat) (v : JSVal) (path : String) (st : FmtState),
      isError h v = true →
      st.allValues.find? (fun r0 => r0.value == v) = none →
      format h opts (n + 1) v path st =
        some (.errorF (errorFields h v st.errors.length),
          ⟨st.errors ++ [(v, st.errors.length)], st.allValues ++ [⟨v, path⟩]⟩)) ∧
    (∀ (h : Heap) (opts : IOption) (n : Nat) (v : JSVal) (path : String)
        (st : FmtState) (r : FProp) (st' : FmtState),
      st.errors.map Prod.snd = List.range st.errors.length →
      format h opts n v path st = some (r, st') →
      st'.errors.map Prod.snd = List.range st'.errors.length) ∧
    formatMeta H2 {} (.ref 0) =
      some (.objF [("list", .arrF
        [.errorF [("message", .prim (.str "a")), ("stack", .prim (.str "*[0]"))],
         .errorF [("message", .prim (.str "b")), ("stack", .prim (.str "*[1]"))]])],
        [(.ref 2, 0), (.ref 3, 1)]) ∧
    transportLog H2 {} defaultLevelMapper (fun _ => none) 0
        ⟨some "info", "hello", none, .ref 0⟩ =
      some ⟨0, "Information", "hello",
        some ("[0]: Error: a\n    at x" ++ "\n\n" ++ "[1]: Error: b\n    at y"),
        some (.objF [("list", .arrF
          [.errorF [("message", .prim (.str "a")), ("stack", .prim (.str "*[0]"))],
           .errorF [("message", .prim (.str "b")), ("stack", .prim (.str "*[1]"))]])])⟩ := by
  refine ⟨?_, ?_, by rfl, by rfl⟩
  · intro h opts n v path st hE hf
    exact format_error_step hE hf path
  · intro h opts n v path st r st' hids hm
    exact format_errids h opts n v path st r st' hids hm

/-- Witness for C2's extraction conjunct: extracting `errA` of `H2` from an
empty state assigns id 0 and emits the `*[0]` token. -/
theorem C2_error_extraction_witness :
    format H2 {} (0 + 1) (.ref 2) "$root.e" ⟨[], []⟩ =
      some (.errorF [("message", .prim (.str "a")), ("stack", .prim (.str "*[0]"))],
        ⟨[(.ref 2, 0)], [⟨.ref 2, "$root.e"⟩]⟩) :=
  C2_error_extraction.1 H2 {} 0 (.ref 2) "$root.e" ⟨[], []⟩ (by rfl) (by rfl)

/-- C3: the visit table holds at most one record per distinct value —
formatting preserves duplicate-freedom of the tracked values; registration
is pre-order — an unvisited composite's record lands in the table ahead of
every record added while formatting its children; tracking is by reference
identity, not structure — the two structurally identical but distinct
objects of `H3` are both expanded with no `$circular` marker; and a value
directly containing itself (`H3b`) is detected as circular instead of
recursing forever. -/
theorem C3_identity_tracking :
    (∀ (h : Heap) (opts : IOption) (n : Nat) (v : JSVal) (path : String)
        (st : FmtState) (r : FProp) (st' : FmtState),
      (st.allValues.map VisitRecord.value).Nodup →
      format h opts n v path st = some (r, st') →
      (st'.allValues.map VisitRecord.value).Nodup) ∧
    (∀ (h : Heap) (opts : IOption) (n : Nat) (v : JSVal) (path : String)
        (st : FmtState) (r : FProp) (st' : FmtState),
      isComplex v = true →
      st.allValues.find? (fun r0 => r0.value == v) = none →
      format h opts (n + 1) v path st = some (r, st') →
      ∃ rest, st'.allValues = st.allValues ++ ⟨v, path⟩ :: rest) ∧
    formatMeta H3 {} (.ref 0) =
      some (.objF [("x", .objF [("v", .raw (.str "1"))]),
                   ("y", .objF [("v", .raw (.str "1"))])], []) ∧
    H3.nodes[1]? = H3.nodes[2]? ∧
    formatMeta H3b {} (.ref 0) = some (.arrF [.circular "$root"], []) := by
  refine ⟨?_, ?_, by rfl, by rfl, by rfl⟩
  · intro h opts n v path st r st' hnd hm
    exact format_nodup h opts n v path st r st' hnd hm
  · intro h opts n v path st r st' hc hf hm
    exact format_preorder h opts n v path st r st' hc hf hm

/-- Witness for C3's duplicate-freedom conjunct on the `H1` self-reference. -/
theorem C3_identity_tracking_witness :
    (((⟨[], [⟨.ref 0, "$root"⟩]⟩ : FmtState).allValues.map VisitRecord.value)).Nodup :=
  C3_identity_tracking.1 H1 {} 2 (.ref 0) "$root" ⟨[], []⟩
    (.objF [("self", .circular "$root")]) ⟨[], [⟨.ref 0, "$root"⟩]⟩
    (by simp) (by rfl)

/-- C6 counterexample to "never inherited prototype-chain keys": the root
object of `H6` owns only the key `own`, yet its formatted tree also carries
the enumerable key `inh` inherited from its prototype. -/
theorem C6_counterexample :
    formatMeta H6 {} (.ref 0) =
      some (.objF [("own", .raw (.str "o")), ("inh", .raw (.str "i"))], []) ∧
    H6.nodes[0]? =
      some (.obj false (some "Object") [⟨"own", .prim (.str "o"), true⟩] (some 1)) ∧
    ([(⟨"own", .prim (.str "o"), true⟩ : JSField)].map JSField.key) = ["own"] ∧
    objKeys (.objF [("own", .raw (.str "o")), ("inh", .raw (.str "i"))]) = ["own", "inh"] ∧
    ¬ (["own", "inh"] : List String) = ["own"] :=
  ⟨by rfl, by rfl, by rfl, by rfl, by decide⟩

/-- C6 as amended: the formatter recurses over exactly the `for..in` keys of
a keyed record — its own enumerable keys followed by inherited enumerable
keys not shadowed by own keys, preserving encounter order — appending the
path suffix `.key` per key; for a record with no prototype this is exactly
its own enumerable keys. -/
theorem C6_key_enumeration :
    (∀ (h : Heap) (opts : IOption) (n : Nat) (a : Addr) (st : FmtState)
        (isErrInst : Bool) (ctorName : Option String) (fields : List JSField)
        (proto : Option Addr) (r : FProp) (st' : FmtState) (path : String),
      st.allValues.find? (fun r0 => r0.value == .ref a) = none →
      isError h (.ref a) = false →
      h.nodes[a]? = some (.obj isErrInst ctorName fields proto) →
      format h opts (n + 1) (.ref a) path st = some (r, st') →
      ∃ entries, r = .objF entries ∧ entries.map Prod.fst = forInKeys h a) ∧
    (∀ (h : Heap) (a : Addr) (ei : Bool) (cn : Option String) (F : List JSField),
      h.nodes[a]? = some (.obj ei cn F none) →
      forInKeys h a = (F.filter (fun f => f.enumerable)).map (fun f => f.key)) ∧
    (∀ (h : Heap) (a b : Addr) (ei ei2 : Bool) (cn cn2 : Option String)
        (F G : List JSField),
      h.nodes[a]? = some (.obj ei cn F (some b)) →
      h.nodes[b]? = some (.obj ei2 cn2 G none) →
      forInKeys h a =
        (F.filter (fun f => f.enumerable)).map (fun f => f.key)
          ++ (G.filter (fun g => g.enumerable
                && !((F.map (fun f => f.key)).contains g.key))).map (fun g => g.key)) ∧
    format H6b {} (H6b.nodes.length + 1) (.ref 0) "$root" ⟨[], []⟩ =
      some (.objF [("x", .objF [])],
        ⟨[], [⟨.ref 0, "$root"⟩, ⟨.ref 1, "$root.x"⟩]⟩) ∧
    forInKeys H6 0 = ["own", "inh"] := by
  refine ⟨?_, ?_, ?_, by rfl, by rfl⟩
  · intro h opts n a st isErrInst ctorName fields proto r st' path hf hE hn hm
    exact format_obj_keys hf hE hn path hm
  · intro h a ei cn F hn
    exact forInKeys_no_proto hn
  · intro h a b ei ei2 cn cn2 F G hn hb
    exact forInKeys_one_proto hn hb

/-- Witness for C6's key conjunct on the `H6` prototype chain. -/
theorem C6_key_enumeration_witness :
    ∃ entries,
      FProp.objF [("own", FProp.raw (.str "o")), ("inh", FProp.raw (.str "i"))] =
        .objF entries ∧ entries.map Prod.fst = forInKeys H6 0 :=
  C6_key_enumeration.1 H6 {} 2 0 ⟨[], []⟩ false (some "Object")
    [⟨"own", .prim (.str "o"), true⟩] (some 1)
    (.objF [("own", .raw (.str "o")), ("inh", .raw (.str "i"))])
    ⟨[], [⟨.ref 0, "$root"⟩]⟩ "$root" (by rfl) (by rfl) (by rfl) (by rfl)

/-- C10: any composite value reached a second time anywhere in one
top-level call — even along an acyclic path — is formatted as a
`$circular` marker carrying its first-seen path, with the state untouched
(so an error-like value is extracted at most once); visit records are never
removed (the table only grows); and the error object shared by two sibling
properties in `H10` is extracted once at `$root.a` and marked
`$circular "$root.a"` at `$root.b`. -/
theorem C10_second_occurrence_marker :
    (∀ (h : Heap) (opts : IOption) (n : Nat) (v : JSVal) (path : String)
        (st : FmtState) (r0 : VisitRecord),
      isComplex v = true →
      st.allValues.find? (fun rec0 => rec0.value == v) = some r0 →
      format h opts (n + 1) v path st = some (.circular r0.path, st)) ∧
    (∀ (h : Heap) (opts : IOption) (n : Nat) (v : JSVal) (path : String)
        (st : FmtState) (r : FProp) (st' : FmtState),
      format h opts n v path st = some (r, st') →
      ∃ e, st'.allValues = st.allValues ++ e) ∧
    formatMeta H10 {} (.ref 0) =
      some (.objF [("a", .errorF [("message", .prim (.str "e")),
                                  ("stack", .prim (.str "*[0]"))]),
                   ("b", .circular "$root.a")],
        [(.ref 1, 0)]) := by
  refine ⟨?_, ?_, by rfl⟩
  · intro h opts n v path st r0 hc hf
    exact format_visited hc hf path
  · intro h opts n v path st r st' hm
    exact (format_ext h opts n v path st r st' hm).2

/-- Witness for C10's marker conjunct: the shared error of `H10`, already
visited at `$root.a`, formats as `$circular "$root.a"` at `$root.b`. -/
theorem C10_second_occurrence_marker_witness :
    format H10 {} (0 + 1) (.ref 1) "$root.b"
        ⟨[(.ref 1, 0)], [⟨.ref 0, "$root"⟩, ⟨.ref 1, "$root.a"⟩]⟩ =
      some (.circular "$root.a",
        ⟨[(.ref 1, 0)], [⟨.ref 0, "$root"⟩, ⟨.ref 1, "$root.a"⟩]⟩) :=
  C10_second_occurrence_marker.1 H10 {} 0 (.ref 1) "$root.b"
    ⟨[(.ref 1, 0)], [⟨.ref 0, "$root"⟩, ⟨.ref 1, "$root.a"⟩]⟩
    ⟨.ref 1, "$root.a"⟩ (by rfl) (by rfl)
